import Mathlib

/-!
# Verification of rehex's incremental disassembly engine (src/disassemble.cpp)

Shallow embedding of `REHex::DisassemblyRegion` (the incremental region
decoder) and the search logic of `REHex::Disassemble::update` (the live
preview), translated from `src/disassemble.cpp`.

Modelling conventions:
* Byte offsets, lengths and line numbers (`off_t`, `int64_t`, `size_t`) are
  modelled as `Nat`; all values produced by the code here are non-negative.
* The capstone handle is opaque.  A decoder is a function from the remaining
  byte buffer and the current address to an optional decoded instruction
  (consumed length and rendered text); `cs_disasm_iter` loops are rendered by
  `disasmIterF`.  Emitted instructions always satisfy capstone's contract
  (`0 < size ≤ remaining bytes`); the guard in `disasmIterF` enforces this.
* The document (`doc->read_data`) is a function `Nat → Nat → Option (List Nat)`;
  `none` models a thrown read exception.
* `std::vector`s are `List`s; binary searches (`std::upper_bound` then
  `std::prev`) over the sorted vectors are rendered by `lastLE`-style
  functions returning the last element whose offset is `≤` the key, and
  inserting a block at the `upper_bound` position is rendered by splitting
  the sorted vector at the same predicate.
-/

namespace Rehex

/-- A decoded instruction (`REHex::DisassemblyRegion::Instruction`). -/
structure Insn where
  offset : Nat
  length : Nat
  data : List Nat
  disasm : String
  rel_y_offset : Nat
deriving DecidableEq, Repr

/-- A processed chunk (`REHex::DisassemblyRegion::InstructionRange`). -/
structure InstructionRange where
  offset : Nat
  length : Nat
  longest_instruction : Nat
  longest_disasm : Nat
  rel_y_offset : Nat
  y_lines : Nat
deriving DecidableEq, Repr

/-- `Modelled from the spec:` the dirty-range tracker (`REHex::ByteRangeSet`)
is implemented outside `src/`; per the spec it is "a set of byte offsets not
yet covered by any chunk ... modeled generally as a range set", kept as
sorted, disjoint byte ranges. -/
structure ByteRange where
  offset : Nat
  length : Nat
deriving DecidableEq, Repr

/-- The mutable state of a `REHex::DisassemblyRegion`. -/
structure Region where
  d_offset : Nat
  d_length : Nat
  processed : List InstructionRange
  instructions : List Insn
  dirty : List ByteRange
  longest_instruction : Nat
  longest_disasm : Nat
  indent_final : Nat
deriving DecidableEq, Repr

/-- The opaque decoding capability (one `cs_disasm_iter` call): given the
remaining code bytes and the current address, yield the consumed length and
rendered text of one instruction, or `none` if nothing can be decoded. -/
abbrev Decoder := List Nat → Nat → Option (Nat × String)

/-- The document byte source: `read_data(offset, length)`, where `none`
models a thrown read exception. -/
abbrev DocRead := Nat → Nat → Option (List Nat)

def SOFT_IR_LIMIT : Nat := 10240

def INSTRUCTION_CACHE_LIMIT : Nat := 250000

/-- The `while(cs_disasm_iter(...))` loop: repeatedly decode one instruction,
advancing the buffer, the address and the per-instruction line number.
Fuel-based; `fuel = bs.length` suffices since every emitted instruction
consumes at least one byte (capstone's contract, enforced by the guard). -/
def disasmIterF (dec : Decoder) : Nat → List Nat → Nat → Nat → List Insn
  | 0, _, _, _ => []
  | fuel+1, bs, addr, rely =>
    match dec bs addr with
    | none => []
    | some (len, txt) =>
      if len = 0 ∨ bs.length < len then []
      else
        { offset := addr, length := len, data := bs.take len,
          disasm := txt, rel_y_offset := rely }
          :: disasmIterF dec fuel (bs.drop len) (addr + len) (rely + 1)

/-- Decode a whole buffer starting at `addr`, numbering instructions from
line `rely` (used both by `check()` and by `instruction_by_offset`). -/
def decodeIns (dec : Decoder) (data : List Nat) (addr rely : Nat) : List Insn :=
  disasmIterF dec data.length data addr rely

/-- Total bytes consumed by a run of decoded instructions
(`new_ir.length += insn->size` accumulated). -/
def consumed (l : List Insn) : Nat := (l.map Insn.length).sum

/-- `std::max` fold over instruction sizes (`new_ir.longest_instruction`). -/
def maxInsnLen (l : List Insn) : Nat := l.foldl (fun m i => max m i.length) 0

/-- `std::max` fold over rendered-text lengths (`new_ir.longest_disasm`). -/
def maxDisasmLen (l : List Insn) : Nat := l.foldl (fun m i => max m i.disasm.length) 0

/-- `processed.empty() ? 0 : (processed.back().rel_y_offset + processed.back().y_lines)`. -/
def relYEnd (processed : List InstructionRange) : Nat :=
  match processed.getLast? with
  | none => 0
  | some ir => ir.rel_y_offset + ir.y_lines

/-- `REHex::DisassemblyRegion::processed_lines`. -/
def processed_lines (st : Region) : Nat := relYEnd st.processed

/-- `REHex::DisassemblyRegion::unprocessed_offset`. -/
def unprocessed_offset (st : Region) : Nat :=
  match st.processed.getLast? with
  | none => st.d_offset
  | some ir => ir.offset + ir.length

/-- `REHex::DisassemblyRegion::unprocessed_bytes`. -/
def unprocessed_bytes (st : Region) : Nat :=
  st.d_length - (unprocessed_offset st - st.d_offset)

/-- `REHex::DisassemblyRegion::max_bytes_per_line`. -/
def max_bytes_per_line (st : Region) : Nat :=
  if 0 < st.longest_instruction then st.longest_instruction else 8

/-- `Modelled from the spec:` `ByteRangeSet::clear_range` helper — the parts
of range `r` outside the cleared interval `[off, off+len)`. -/
def rangeClip (r : ByteRange) (off len : Nat) : List ByteRange :=
  (if r.offset < min (r.offset + r.length) off then
    [⟨r.offset, min (r.offset + r.length) off - r.offset⟩] else [])
  ++ (if max r.offset (off + len) < r.offset + r.length then
    [⟨max r.offset (off + len), r.offset + r.length - max r.offset (off + len)⟩] else [])

def clearRangeGo : List ByteRange → Nat → Nat → List ByteRange
  | [], _, _ => []
  | r :: rest, off, len => rangeClip r off len ++ clearRangeGo rest off len

/-- `Modelled from the spec:` `ByteRangeSet::clear_range` — remove the byte
interval `[off, off+len)` from the range set (clearing nothing is a no-op). -/
def clearRange (rs : List ByteRange) (off len : Nat) : List ByteRange :=
  if len = 0 then rs else clearRangeGo rs off len

/-- Membership of a byte offset in a range set. -/
def rsMem (rs : List ByteRange) (o : Nat) : Bool :=
  rs.any (fun r => decide (r.offset ≤ o) && decide (o < r.offset + r.length))

/-- A freshly constructed region: fully dirty
(`dirty.set_range(d_offset, d_length)` on an empty set). -/
def initRegion (off len ind : Nat) : Region :=
  { d_offset := off, d_length := len, processed := [], instructions := [],
    dirty := if len = 0 then [] else [⟨off, len⟩],
    longest_instruction := 0, longest_disasm := 0, indent_final := ind }

/-- The `unsigned int` state flags returned by `check()`
(`Region::HEIGHT_CHANGE`, `Region::WIDTH_CHANGE`, `Region::PROCESSING`;
`IDLE` is all-false). -/
structure CheckFlags where
  height_change : Bool
  width_change : Bool
  processing : Bool
deriving DecidableEq, Repr

def idleFlags : CheckFlags := ⟨false, false, false⟩

/-- `REHex::DisassemblyRegion::check` — one incremental processing step.
The returned `Option CheckFlags` is `none` when `doc->read_data` throws
(the exception propagates; the region is left in its prior state, which is
the paired `Region`). -/
def check (dec : Decoder) (doc : DocRead) (st : Region) : Option CheckFlags × Region :=
  match st.dirty.head? with
  | none => (some idleFlags, st)
  | some fr =>
    match doc fr.offset (min fr.length SOFT_IR_LIMIT) with
    | none => (none, st)
    | some data =>
      let ins := decodeIns dec data fr.offset (relYEnd st.processed)
      let new_ir : InstructionRange :=
        { offset := fr.offset, length := consumed ins,
          longest_instruction := maxInsnLen ins,
          longest_disasm := maxDisasmLen ins,
          rel_y_offset := relYEnd st.processed, y_lines := ins.length }
      let dirty2 := clearRange st.dirty new_ir.offset new_ir.length
      (some { height_change := !ins.isEmpty,
              width_change := decide (st.longest_instruction < new_ir.longest_instruction)
                || decide (st.longest_disasm < new_ir.longest_disasm),
              processing := !dirty2.isEmpty },
       { st with
          processed := st.processed ++ [new_ir],
          dirty := dirty2,
          longest_instruction := max st.longest_instruction new_ir.longest_instruction,
          longest_disasm := max st.longest_disasm new_ir.longest_disasm })

/-- `REHex::DisassemblyRegion::calc_height`: accumulated chunk line counts,
plus fixed-width rows for the unprocessed bytes, plus trailing padding. -/
def calc_height (st : Region) : Nat :=
  (st.processed.map InstructionRange.y_lines).sum
    + (unprocessed_bytes st + (max_bytes_per_line st - 1)) / max_bytes_per_line st
    + st.indent_final

/-- Last element of the (offset-sorted) list whose offset is `≤ o`:
the element at `std::prev(std::upper_bound(...))` when it exists. -/
def lastLE : List Insn → Nat → Option Insn
  | [], _ => none
  | i :: rest, o =>
    match lastLE rest o with
    | some j => some j
    | none => if i.offset ≤ o then some i else none

/-- The cache probe at the top of `instruction_by_offset`: predecessor by
offset, validated to actually cover `o`. -/
def cacheLookup (cache : List Insn) (o : Nat) : Option Insn :=
  match lastLE cache o with
  | none => none
  | some i => if i.offset ≤ o ∧ o < i.offset + i.length then some i else none

/-- `lastLE` for the chunk index. -/
def lastLEIR : List InstructionRange → Nat → Option InstructionRange
  | [], _ => none
  | ir :: rest, o =>
    match lastLEIR rest o with
    | some j => some j
    | none => if ir.offset ≤ o then some ir else none

/-- `REHex::DisassemblyRegion::processed_by_offset`. -/
def processedByOffset (chunks : List InstructionRange) (o : Nat) : Option InstructionRange :=
  match lastLEIR chunks o with
  | none => none
  | some ir => if ir.offset ≤ o ∧ o < ir.offset + ir.length then some ir else none

/-- The cache update inside `instruction_by_offset`: if inserting would grow
the cache past `INSTRUCTION_CACHE_LIMIT`, clear it first (cache becomes the
new batch alone); otherwise splice the batch in at the `upper_bound`
position of the sorted vector. -/
def cacheInsert (cache : List Insn) (o : Nat) (new : List Insn) : List Insn :=
  if INSTRUCTION_CACHE_LIMIT < cache.length + new.length then new
  else cache.filter (fun i => decide (i.offset ≤ o)) ++ new
    ++ cache.filter (fun i => !decide (i.offset ≤ o))

/-- `REHex::DisassemblyRegion::instruction_by_offset`, fuel-indexed: the C++
function recurses after populating the cache; `fuel = 0` stands for the
(unreachable, given consistent chunk summaries) non-terminating recursion. -/
def instructionByOffsetF (dec : Decoder) (doc : DocRead) :
    Nat → Region → Nat → Option Insn × Region
  | 0, st, _ => (none, st)
  | fuel+1, st, o =>
    match cacheLookup st.instructions o with
    | some i => (some i, st)
    | none =>
      match processedByOffset st.processed o with
      | none => (none, st)
      | some ir =>
        match doc ir.offset ir.length with
        | none => (none, st)
        | some data =>
          let cache2 := cacheInsert st.instructions o
            (decodeIns dec data ir.offset ir.rel_y_offset)
          instructionByOffsetF dec doc fuel { st with instructions := cache2 } o

/-- `instruction_by_offset` proper: the C++ recursion terminates after one
cache-populating round trip whenever the decoded batch covers the queried
offset. -/
def instructionByOffset (dec : Decoder) (doc : DocRead) (st : Region) (o : Nat) :
    Option Insn × Region :=
  instructionByOffsetF dec doc 2 st o

/-- The instructions obtained by on-demand re-decoding a chunk's byte span
(the decode performed on a cache miss in `instruction_by_offset`). -/
def chunkIns (dec : Decoder) (doc : DocRead) (ir : InstructionRange) : List Insn :=
  match doc ir.offset ir.length with
  | none => []
  | some data => decodeIns dec data ir.offset ir.rel_y_offset

/-- The cache-independent answer of `instruction_by_offset`: locate the
owning chunk and search its re-decoded instructions. -/
def pureLookup (dec : Decoder) (doc : DocRead) (chunks : List InstructionRange) (o : Nat) :
    Option Insn :=
  match processedByOffset chunks o with
  | none => none
  | some ir => cacheLookup (chunkIns dec doc ir) o

/-- Cursor positions: a byte offset, or one of the sentinel values
`CURSOR_PREV_REGION` / `CURSOR_NEXT_REGION`. -/
inductive CursorPos where
  | pos (o : Nat)
  | prevRegion
  | nextRegion
deriving DecidableEq, Repr

/-- `REHex::DisassemblyRegion::cursor_left_from`. -/
def cursor_left_from (st : Region) (pos : Nat) : CursorPos :=
  if st.d_offset < pos then .pos (pos - 1) else .prevRegion

/-- `REHex::DisassemblyRegion::cursor_right_from`. -/
def cursor_right_from (st : Region) (pos : Nat) : CursorPos :=
  if pos + 1 < st.d_offset + st.d_length then .pos (pos + 1) else .nextRegion

/-- `REHex::DisassemblyRegion::cursor_up_from` (the cache mutations of the
`instruction_by_offset` calls are threaded through the returned `Region`). -/
def cursor_up_from (dec : Decoder) (doc : DocRead) (st : Region) (pos : Nat) :
    CursorPos × Region :=
  let up_off := unprocessed_offset st
  let up_bytes_per_line := max_bytes_per_line st
  if pos < up_off then
    match instructionByOffset dec doc st pos with
    | (none, st1) => (.pos pos, st1)
    | (some instr, st1) =>
      if instr.offset = st.d_offset then (.prevRegion, st1)
      else
        match instructionByOffset dec doc st1 (instr.offset - 1) with
        | (none, st2) => (.pos pos, st2)
        | (some prev, st2) =>
          (.pos (min (prev.offset + (pos - instr.offset))
                     (prev.offset + prev.length - 1)), st2)
  else if pos < up_off + up_bytes_per_line then
    if up_off = st.d_offset then (.prevRegion, st)
    else
      match instructionByOffset dec doc st (up_off - 1) with
      | (none, st1) => (.pos pos, st1)
      | (some instr, st1) =>
        (.pos (min (instr.offset + (pos - up_off))
                   (instr.offset + instr.length - 1)), st1)
  else
    (.pos (pos - up_bytes_per_line), st)

/-- `REHex::DisassemblyRegion::cursor_down_from`. -/
def cursor_down_from (dec : Decoder) (doc : DocRead) (st : Region) (pos : Nat) :
    CursorPos × Region :=
  let up_off := unprocessed_offset st
  let up_bytes_per_line := max_bytes_per_line st
  if pos < up_off then
    match instructionByOffset dec doc st pos with
    | (none, st1) => (.pos pos, st1)
    | (some instr, st1) =>
      if instr.offset + instr.length = st.d_offset + st.d_length then
        (.nextRegion, st1)
      else if instr.offset + instr.length = up_off then
        (.pos (min (up_off + (pos - instr.offset)) (st.d_offset + st.d_length - 1)), st1)
      else
        match instructionByOffset dec doc st1 (instr.offset + instr.length) with
        | (none, st2) => (.pos pos, st2)
        | (some next_instr, st2) =>
          (.pos (min (next_instr.offset + (pos - instr.offset))
                     (next_instr.offset + next_instr.length - 1)), st2)
  else
    let line_pos := (pos - up_off) % up_bytes_per_line
    if pos + up_bytes_per_line < st.d_offset + st.d_length then
      (.pos (pos + up_bytes_per_line), st)
    else if (pos - line_pos) + up_bytes_per_line < st.d_offset + st.d_length then
      (.pos (st.d_offset + st.d_length - 1), st)
    else
      (.nextRegion, st)

/-- `REHex::DisassemblyRegion::cursor_home_from`. -/
def cursor_home_from (dec : Decoder) (doc : DocRead) (st : Region) (pos : Nat) :
    CursorPos × Region :=
  let up_off := unprocessed_offset st
  let up_bytes_per_line := max_bytes_per_line st
  if pos < up_off then
    match instructionByOffset dec doc st pos with
    | (none, st1) => (.pos pos, st1)
    | (some instr, st1) => (.pos instr.offset, st1)
  else
    (.pos (pos - (pos - up_off) % up_bytes_per_line), st)

/-- `REHex::DisassemblyRegion::cursor_end_from`. -/
def cursor_end_from (dec : Decoder) (doc : DocRead) (st : Region) (pos : Nat) :
    CursorPos × Region :=
  let up_off := unprocessed_offset st
  let up_bytes_per_line := max_bytes_per_line st
  if pos < up_off then
    match instructionByOffset dec doc st pos with
    | (none, st1) => (.pos pos, st1)
    | (some instr, st1) => (.pos (instr.offset + instr.length - 1), st1)
  else
    let line_pos := (pos - up_off) % up_bytes_per_line
    (.pos (min ((pos - line_pos) + (up_bytes_per_line - 1))
               (st.d_offset + st.d_length - 1)), st)

/-! ## The live preview (`REHex::Disassemble::update`) -/

/-- `REHex::Disassemble::disassemble`: decode a buffer into the offset-keyed
map of instructions (rendered as the sorted run of decoded instructions). -/
def disasmIter (dec : Decoder) (bs : List Nat) (addr : Nat) : List Insn :=
  disasmIterF dec bs.length bs addr 0

/-- Number of candidate start offsets tried by `update`'s search loops
(`doc_off` from `window_base` while `doc_off <= position` and
`data_off < data.size()`). -/
def previewCount (wb pos : Nat) (data : List Nat) : Nat :=
  min (pos + 1 - wb) data.length

/-- The decode attempted for candidate `k`
(`disassemble(doc_off, data.data() + data_off, data.size() - data_off)`). -/
def candidateChain (dec : Decoder) (wb : Nat) (data : List Nat) (k : Nat) : List Insn :=
  disasmIter dec (data.drop k) (wb + k)

/-- Step-1 test: `i_instructions.find(position) != i_instructions.end()`. -/
def hasExact (chain : List Insn) (pos : Nat) : Bool :=
  chain.any (fun i => i.offset == pos)

/-- Step-2 test: `ii = lower_bound(position); ii != begin() && ii != end()
&& (--ii)->covers(position)` over the offset-keyed map. -/
def step2Accept (chain : List Insn) (pos : Nat) : Bool :=
  let lt := chain.takeWhile (fun i => decide (i.offset < pos))
  let ge := chain.dropWhile (fun i => decide (i.offset < pos))
  match lt.getLast? with
  | none => false
  | some prev => !ge.isEmpty && decide (pos < prev.offset + prev.length)

/-- The candidate-selection core of `REHex::Disassemble::update`: first pass
accepts a candidate decoding to an instruction starting exactly at the
cursor; second pass accepts by the `lower_bound` overlap test; `none` is the
`<invalid instruction>` outcome. -/
def previewChoose (dec : Decoder) (wb pos : Nat) (data : List Nat) : Option (List Insn) :=
  let ks := List.range (previewCount wb pos data)
  match ks.find? (fun k => hasExact (candidateChain dec wb data k) pos) with
  | some k => some (candidateChain dec wb data k)
  | none =>
    match ks.find? (fun k => step2Accept (candidateChain dec wb data k) pos) with
    | some k => some (candidateChain dec wb data k)
    | none => none

/-! ## Well-formedness predicates -/

/-- Chunks are contiguous in byte space and line space, starting at `off` /
line `rely` (the spec's chunk-list invariant). -/
def wfFromB (off rely : Nat) : List InstructionRange → Bool
  | [] => true
  | ir :: rest =>
    (ir.offset == off) && (ir.rel_y_offset == rely)
      && wfFromB (off + ir.length) (rely + ir.y_lines) rest

/-- A decoded run: instructions contiguous from `addr`, nonempty lengths,
consecutively numbered lines from `rely`. -/
def chainFromB (addr rely : Nat) : List Insn → Bool
  | [] => true
  | i :: rest =>
    (i.offset == addr) && decide (0 < i.length) && (i.rel_y_offset == rely)
      && chainFromB (addr + i.length) (rely + 1) rest

/-- The document never returns more bytes than requested. -/
def GoodDocLen (doc : DocRead) : Prop :=
  ∀ o l bs, doc o l = some bs → bs.length ≤ l

def sumLen (l : List InstructionRange) : Nat := (l.map InstructionRange.length).sum

def sumY (l : List InstructionRange) : Nat := (l.map InstructionRange.y_lines).sum

/-- Chunk summaries match the current document bytes: re-decoding a chunk's
span consumes exactly the recorded chunk length ("document bytes unchanged
and no intervening invalidation"). -/
def ChunksFaithful (dec : Decoder) (doc : DocRead) (chunks : List InstructionRange) : Prop :=
  ∀ ir ∈ chunks, ∃ data, doc ir.offset ir.length = some data ∧
    data.length ≤ ir.length ∧
    consumed (decodeIns dec data ir.offset ir.rel_y_offset) = ir.length

/-- Every cached instruction stems from the on-demand decode of one of the
region's chunks (the cache is a derived, reconstructible accelerator). -/
def CacheOK (dec : Decoder) (doc : DocRead) (st : Region) : Prop :=
  ∀ i ∈ st.instructions, ∃ ir ∈ st.processed, i ∈ chunkIns dec doc ir

/-- Region states reachable by constructing a region and calling `check()`
(read failures leave the state unchanged and are covered by the base case). -/
inductive Reach (dec : Decoder) (doc : DocRead) : Region → Prop where
  | init : ∀ off len ind, Reach dec doc (initRegion off len ind)
  | step : ∀ {st fl st'}, Reach dec doc st →
      check dec doc st = (some fl, st') → Reach dec doc st'

/-! ## Basic lemmas about decoded instruction runs -/

theorem consumed_nil : consumed [] = 0 := rfl

theorem consumed_cons (i : Insn) (l : List Insn) :
    consumed (i :: l) = i.length + consumed l := by
  simp [consumed]

theorem chainFromB_cons {addr rely : Nat} {i : Insn} {l : List Insn} :
    chainFromB addr rely (i :: l) = true ↔
      i.offset = addr ∧ 0 < i.length ∧ i.rel_y_offset = rely ∧
        chainFromB (addr + i.length) (rely + 1) l = true := by
  simp [chainFromB, and_assoc]

theorem disasmIterF_consumed_le (dec : Decoder) :
    ∀ (fuel : Nat) (bs : List Nat) (addr rely : Nat),
      consumed (disasmIterF dec fuel bs addr rely) ≤ bs.length := by
  intro fuel
  induction fuel with
  | zero => intro bs addr rely; simp [disasmIterF, consumed]
  | succ n ih =>
    intro bs addr rely
    rw [disasmIterF]
    cases hd : dec bs addr with
    | none => simp [consumed]
    | some p =>
      obtain ⟨len, txt⟩ := p
      dsimp only
      by_cases hg : len = 0 ∨ bs.length < len
      · simp [hg, consumed]
      · rw [if_neg hg]
        push_neg at hg
        have h1 := ih (bs.drop len) (addr + len) (rely + 1)
        rw [consumed_cons]
        dsimp only
        simp only [List.length_drop] at h1
        omega

theorem decodeIns_consumed_le (dec : Decoder) (data : List Nat) (addr rely : Nat) :
    consumed (decodeIns dec data addr rely) ≤ data.length :=
  disasmIterF_consumed_le dec data.length data addr rely

theorem disasmIterF_chain (dec : Decoder) :
    ∀ (fuel : Nat) (bs : List Nat) (addr rely : Nat),
      chainFromB addr rely (disasmIterF dec fuel bs addr rely) = true := by
  intro fuel
  induction fuel with
  | zero => intro bs addr rely; simp [disasmIterF, chainFromB]
  | succ n ih =>
    intro bs addr rely
    rw [disasmIterF]
    cases hd : dec bs addr with
    | none => simp [chainFromB]
    | some p =>
      obtain ⟨len, txt⟩ := p
      dsimp only
      by_cases hg : len = 0 ∨ bs.length < len
      · simp [hg, chainFromB]
      · rw [if_neg hg]
        push_neg at hg
        rw [chainFromB_cons]
        exact ⟨rfl, Nat.pos_of_ne_zero hg.1, rfl, ih _ _ _⟩

theorem decodeIns_chain (dec : Decoder) (data : List Nat) (addr rely : Nat) :
    chainFromB addr rely (decodeIns dec data addr rely) = true :=
  disasmIterF_chain dec data.length data addr rely

/-- Every instruction of a decoded run lies inside the consumed span. -/
theorem chain_mem_span {addr rely : Nat} {l : List Insn}
    (h : chainFromB addr rely l = true) :
    ∀ i ∈ l, addr ≤ i.offset ∧ i.offset + i.length ≤ addr + consumed l ∧ 0 < i.length := by
  induction l generalizing addr rely with
  | nil => intro i hi; exact absurd hi (List.not_mem_nil i)
  | cons x rest ih =>
    rw [chainFromB_cons] at h
    obtain ⟨hoff, hlen, _, hrest⟩ := h
    intro i hi
    rw [consumed_cons]
    rcases List.mem_cons.mp hi with rfl | hi'
    · refine ⟨by omega, by omega, hlen⟩
    · have := ih hrest i hi'
      omega

/-- Within one decoded run, the instruction covering a given offset is unique. -/
theorem chain_unique_cover {addr rely o : Nat} {l : List Insn}
    (h : chainFromB addr rely l = true) :
    ∀ i ∈ l, ∀ j ∈ l,
      i.offset ≤ o → o < i.offset + i.length →
      j.offset ≤ o → o < j.offset + j.length → i = j := by
  induction l generalizing addr rely with
  | nil => intro i hi; exact absurd hi (List.not_mem_nil i)
  | cons x rest ih =>
    rw [chainFromB_cons] at h
    obtain ⟨hoff, hlen, _, hrest⟩ := h
    intro i hi j hj hi1 hi2 hj1 hj2
    rcases List.mem_cons.mp hi with rfl | hi' <;> rcases List.mem_cons.mp hj with rfl | hj'
    · rfl
    · have := (chain_mem_span hrest j hj').1
      omega
    · have := (chain_mem_span hrest i hi').1
      omega
    · exact ih hrest i hi' j hj' hi1 hi2 hj1 hj2

/-- A decoded run covers every offset of its consumed span. -/
theorem chain_covers_exists {addr rely o : Nat} {l : List Insn}
    (h : chainFromB addr rely l = true)
    (h1 : addr ≤ o) (h2 : o < addr + consumed l) :
    ∃ i ∈ l, i.offset ≤ o ∧ o < i.offset + i.length := by
  induction l generalizing addr rely with
  | nil => rw [consumed_nil] at h2; omega
  | cons x rest ih =>
    rw [chainFromB_cons] at h
    obtain ⟨hoff, hlen, _, hrest⟩ := h
    rw [consumed_cons] at h2
    by_cases hx : o < addr + x.length
    · exact ⟨x, List.mem_cons_self x rest, by omega, by omega⟩
    · obtain ⟨i, hi, hc⟩ := ih hrest (by omega) (by omega)
      exact ⟨i, List.mem_cons_of_mem x hi, hc⟩

/-! ## Lemmas about `lastLE` and the validated lookups -/

theorem lastLE_eq_none {l : List Insn} {o : Nat}
    (h : ∀ i ∈ l, ¬ i.offset ≤ o) : lastLE l o = none := by
  induction l with
  | nil => rfl
  | cons x rest ih =>
    rw [lastLE, ih (fun i hi => h i (List.mem_cons_of_mem x hi)),
      if_neg (h x (List.mem_cons_self x rest))]

theorem lastLE_mem {l : List Insn} {o : Nat} {i : Insn}
    (h : lastLE l o = some i) : i ∈ l ∧ i.offset ≤ o := by
  induction l with
  | nil => simp [lastLE] at h
  | cons x rest ih =>
    rw [lastLE] at h
    cases hr : lastLE rest o with
    | some j =>
      rw [hr] at h
      obtain rfl : j = i := by injection h
      have := ih hr
      exact ⟨List.mem_cons_of_mem x this.1, this.2⟩
    | none =>
      rw [hr] at h
      by_cases hx : x.offset ≤ o
      · rw [if_pos hx] at h
        obtain rfl : x = i := by injection h
        exact ⟨List.mem_cons_self x rest, hx⟩
      · rw [if_neg hx] at h
        exact absurd h (by simp)

theorem lastLE_append (a b : List Insn) (o : Nat) :
    lastLE (a ++ b) o =
      match lastLE b o with
      | some j => some j
      | none => lastLE a o := by
  induction a with
  | nil =>
    rw [List.nil_append]
    cases h : lastLE b o <;> simp [lastLE, h]
  | cons x rest ih =>
    rw [List.cons_append]
    rw [show lastLE (x :: (rest ++ b)) o =
        (match lastLE (rest ++ b) o with
        | some j => some j
        | none => if x.offset ≤ o then some x else none) from rfl]
    rw [ih]
    cases lastLE b o <;> rfl

/-- In a decoded run, the validated predecessor search finds exactly the
covering instruction. -/
theorem chain_lastLE {addr rely o : Nat} {l : List Insn} {i : Insn}
    (h : chainFromB addr rely l = true)
    (hi : i ∈ l) (h1 : i.offset ≤ o) (h2 : o < i.offset + i.length) :
    lastLE l o = some i := by
  induction l generalizing addr rely with
  | nil => exact absurd hi (List.not_mem_nil i)
  | cons x rest ih =>
    rw [chainFromB_cons] at h
    obtain ⟨hoff, hlen, _, hrest⟩ := h
    rcases List.mem_cons.mp hi with rfl | hi'
    · have hnone : lastLE rest o = none := by
        refine lastLE_eq_none (fun j hj => ?_)
        have := (chain_mem_span hrest j hj).1
        omega
      rw [lastLE, hnone, if_pos h1]
    · rw [lastLE, ih hrest hi']

theorem cacheLookup_of_chain {addr rely o : Nat} {l : List Insn} {i : Insn}
    (h : chainFromB addr rely l = true)
    (hi : i ∈ l) (h1 : i.offset ≤ o) (h2 : o < i.offset + i.length) :
    cacheLookup l o = some i := by
  rw [cacheLookup, chain_lastLE h hi h1 h2]
  dsimp only
  rw [if_pos ⟨h1, h2⟩]

theorem cacheLookup_sound {l : List Insn} {o : Nat} {i : Insn}
    (h : cacheLookup l o = some i) :
    i ∈ l ∧ i.offset ≤ o ∧ o < i.offset + i.length := by
  rw [cacheLookup] at h
  cases hl : lastLE l o with
  | none => rw [hl] at h; exact absurd h (by simp)
  | some j =>
    rw [hl] at h
    dsimp only at h
    by_cases hc : j.offset ≤ o ∧ o < j.offset + j.length
    · rw [if_pos hc] at h
      obtain rfl : j = i := by injection h
      exact ⟨(lastLE_mem hl).1, hc⟩
    · rw [if_neg hc] at h
      exact absurd h (by simp)

/-! ## Lemmas about the chunk index -/

theorem wfFromB_cons {off rely : Nat} {ir : InstructionRange} {l : List InstructionRange} :
    wfFromB off rely (ir :: l) = true ↔
      ir.offset = off ∧ ir.rel_y_offset = rely ∧
        wfFromB (off + ir.length) (rely + ir.y_lines) l = true := by
  simp [wfFromB, and_assoc]

theorem sumLen_nil : sumLen [] = 0 := rfl

theorem sumLen_cons (ir : InstructionRange) (l : List InstructionRange) :
    sumLen (ir :: l) = ir.length + sumLen l := by
  simp [sumLen]

theorem sumY_cons (ir : InstructionRange) (l : List InstructionRange) :
    sumY (ir :: l) = ir.y_lines + sumY l := by
  simp [sumY]

theorem sumLen_append (a b : List InstructionRange) :
    sumLen (a ++ b) = sumLen a + sumLen b := by
  simp [sumLen]

theorem sumY_append (a b : List InstructionRange) :
    sumY (a ++ b) = sumY a + sumY b := by
  simp [sumY]

theorem wfFromB_append {off rely : Nat} (a b : List InstructionRange) :
    wfFromB off rely (a ++ b) = true ↔
      wfFromB off rely a = true ∧
        wfFromB (off + sumLen a) (rely + sumY a) b = true := by
  induction a generalizing off rely with
  | nil => simp [wfFromB, sumLen_nil, sumY]
  | cons x rest ih =>
    rw [List.cons_append, wfFromB_cons, wfFromB_cons, ih, sumLen_cons, sumY_cons]
    constructor
    · rintro ⟨h1, h2, h3, h4⟩
      refine ⟨⟨h1, h2, h3⟩, ?_⟩
      rw [← Nat.add_assoc, ← Nat.add_assoc]
      exact h4
    · rintro ⟨⟨h1, h2, h3⟩, h4⟩
      refine ⟨h1, h2, h3, ?_⟩
      rw [Nat.add_assoc, Nat.add_assoc]
      exact h4

/-- Every chunk of a well-formed chunk list lies inside the covered span. -/
theorem wf_mem_span {off rely : Nat} {l : List InstructionRange}
    (h : wfFromB off rely l = true) :
    ∀ ir ∈ l, off ≤ ir.offset ∧ ir.offset + ir.length ≤ off + sumLen l := by
  induction l generalizing off rely with
  | nil => intro ir hir; exact absurd hir (List.not_mem_nil ir)
  | cons x rest ih =>
    rw [wfFromB_cons] at h
    obtain ⟨hoff, _, hrest⟩ := h
    intro ir hir
    rw [sumLen_cons]
    rcases List.mem_cons.mp hir with rfl | hir'
    · omega
    · have := ih hrest ir hir'
      omega

/-- The last chunk of a well-formed chunk list ends at the covered span's end. -/
theorem wf_getLast_end {off rely : Nat} {l : List InstructionRange}
    (h : wfFromB off rely l = true) :
    (match l.getLast? with
      | none => off
      | some ir => ir.offset + ir.length) = off + sumLen l := by
  induction l generalizing off rely with
  | nil => simp [sumLen_nil]
  | cons x rest ih =>
    rw [wfFromB_cons] at h
    obtain ⟨hoff, _, hrest⟩ := h
    have hv := ih hrest
    cases rest with
    | nil =>
      rw [List.getLast?_singleton]
      dsimp only
      rw [sumLen_cons, sumLen_nil]
      omega
    | cons y t =>
      rw [List.getLast?_cons_cons, sumLen_cons]
      cases hg : (y :: t).getLast? with
      | none => rw [List.getLast?_eq_none_iff] at hg; exact absurd hg (by simp)
      | some ir =>
        rw [hg] at hv
        dsimp only at hv ⊢
        omega

/-- The last chunk of a well-formed chunk list ends at the covered line span's end. -/
theorem wf_relYEnd {off rely : Nat} {l : List InstructionRange}
    (h : wfFromB off rely l = true) (hne : l ≠ []) :
    relYEnd l = rely + sumY l := by
  induction l generalizing off rely with
  | nil => exact absurd rfl hne
  | cons x rest ih =>
    rw [wfFromB_cons] at h
    obtain ⟨_, hrel, hrest⟩ := h
    cases rest with
    | nil => simp [relYEnd, sumY_cons, sumY, hrel]
    | cons y t =>
      have hv := ih hrest (by simp)
      rw [relYEnd] at hv ⊢
      rw [List.getLast?_cons_cons, sumY_cons]
      cases hg : (y :: t).getLast? with
      | none => rw [List.getLast?_eq_none_iff] at hg; exact absurd hg (by simp)
      | some ir =>
        rw [hg] at hv
        dsimp only at hv ⊢
        omega

theorem lastLEIR_eq_none {l : List InstructionRange} {o : Nat}
    (h : ∀ ir ∈ l, ¬ ir.offset ≤ o) : lastLEIR l o = none := by
  induction l with
  | nil => rfl
  | cons x rest ih =>
    rw [lastLEIR, ih (fun ir hir => h ir (List.mem_cons_of_mem x hir)),
      if_neg (h x (List.mem_cons_self x rest))]

theorem lastLEIR_mem {l : List InstructionRange} {o : Nat} {ir : InstructionRange}
    (h : lastLEIR l o = some ir) : ir ∈ l ∧ ir.offset ≤ o := by
  induction l with
  | nil => simp [lastLEIR] at h
  | cons x rest ih =>
    rw [lastLEIR] at h
    cases hr : lastLEIR rest o with
    | some j =>
      rw [hr] at h
      obtain rfl : j = ir := by injection h
      have := ih hr
      exact ⟨List.mem_cons_of_mem x this.1, this.2⟩
    | none =>
      rw [hr] at h
      by_cases hx : x.offset ≤ o
      · rw [if_pos hx] at h
        obtain rfl : x = ir := by injection h
        exact ⟨List.mem_cons_self x rest, hx⟩
      · rw [if_neg hx] at h
        exact absurd h (by simp)

theorem processedByOffset_sound {l : List InstructionRange} {o : Nat} {ir : InstructionRange}
    (h : processedByOffset l o = some ir) :
    ir ∈ l ∧ ir.offset ≤ o ∧ o < ir.offset + ir.length := by
  rw [processedByOffset] at h
  cases hl : lastLEIR l o with
  | none => rw [hl] at h; exact absurd h (by simp)
  | some j =>
    rw [hl] at h
    dsimp only at h
    by_cases hc : j.offset ≤ o ∧ o < j.offset + j.length
    · rw [if_pos hc] at h
      obtain rfl : j = ir := by injection h
      exact ⟨(lastLEIR_mem hl).1, hc⟩
    · rw [if_neg hc] at h
      exact absurd h (by simp)

/-- In a well-formed chunk list, the chunk containing an offset is found by
`processed_by_offset`. -/
theorem wf_lastLEIR {off rely o : Nat} {l : List InstructionRange}
    {ir : InstructionRange} (h : wfFromB off rely l = true)
    (hir : ir ∈ l) (h1 : ir.offset ≤ o) (h2 : o < ir.offset + ir.length) :
    lastLEIR l o = some ir := by
  induction l generalizing off rely with
  | nil => exact absurd hir (List.not_mem_nil ir)
  | cons x rest ih =>
    rw [wfFromB_cons] at h
    obtain ⟨hoff, _, hrest⟩ := h
    rcases List.mem_cons.mp hir with rfl | hir'
    · have hnone : lastLEIR rest o = none := by
        refine lastLEIR_eq_none (fun j hj => ?_)
        have := (wf_mem_span hrest j hj).1
        omega
      rw [lastLEIR, hnone, if_pos h1]
    · rw [lastLEIR, ih hrest hir']

theorem wf_processedByOffset {off rely o : Nat} {l : List InstructionRange}
    {ir : InstructionRange} (h : wfFromB off rely l = true)
    (hir : ir ∈ l) (h1 : ir.offset ≤ o) (h2 : o < ir.offset + ir.length) :
    processedByOffset l o = some ir := by
  rw [processedByOffset, wf_lastLEIR h hir h1 h2]
  dsimp only
  rw [if_pos ⟨h1, h2⟩]

/-! ## Lemmas about the dirty range set -/

theorem rsMem_rangeClip {r : ByteRange} {off len o : Nat} (hlen : 0 < len) :
    rsMem (rangeClip r off len) o = true ↔
      (r.offset ≤ o ∧ o < r.offset + r.length) ∧ ¬(off ≤ o ∧ o < off + len) := by
  unfold rangeClip rsMem
  split_ifs with h1 h2 h2 <;> simp <;> omega

theorem rsMem_clearRange (rs : List ByteRange) (off len o : Nat) :
    rsMem (clearRange rs off len) o = true ↔
      rsMem rs o = true ∧ ¬(off ≤ o ∧ o < off + len) := by
  by_cases hlen : len = 0
  · subst hlen
    rw [clearRange, if_pos rfl]
    exact ⟨fun h => ⟨h, by omega⟩, fun h => h.1⟩
  · rw [clearRange, if_neg hlen]
    induction rs with
    | nil => simp [clearRangeGo, rsMem]
    | cons r rest ih =>
      have h1 := @rsMem_rangeClip r off len o (Nat.pos_of_ne_zero hlen)
      have h3 : rsMem (r :: rest) o = true ↔
          ((r.offset ≤ o ∧ o < r.offset + r.length) ∨ rsMem rest o = true) := by
        simp [rsMem]
      have h4 : rsMem (rangeClip r off len ++ clearRangeGo rest off len) o = true ↔
          (rsMem (rangeClip r off len) o = true ∨
            rsMem (clearRangeGo rest off len) o = true) := by
        simp [rsMem, List.any_append]
      rw [clearRangeGo, h4, h1, ih, h3]
      constructor
      · rintro (⟨ha, hc⟩ | ⟨hb, hc⟩)
        · exact ⟨Or.inl ha, hc⟩
        · exact ⟨Or.inr hb, hc⟩
      · rintro ⟨ha | hb, hc⟩
        · exact Or.inl ⟨ha, hc⟩
        · exact Or.inr ⟨hb, hc⟩

/-- The dirty set in reachable states: the single range from the frontier to
the region's end, or empty. -/
def mkDirty (f e : Nat) : List ByteRange :=
  if f < e then [⟨f, e - f⟩] else []

theorem clearRange_mkDirty {f e c : Nat} (hfe : f < e) (hc : c ≤ e - f) :
    clearRange [⟨f, e - f⟩] f c = mkDirty (f + c) e := by
  by_cases hc0 : c = 0
  · subst hc0
    rw [clearRange, if_pos rfl, mkDirty, if_pos (by omega)]
    simp
  · have h1 : clearRange [⟨f, e - f⟩] f c = rangeClip ⟨f, e - f⟩ f c := by
      rw [clearRange, if_neg hc0, clearRangeGo, clearRangeGo, List.append_nil]
    rw [h1, rangeClip]
    dsimp only
    have hmin : min (f + (e - f)) f = f := by omega
    have hfe2 : f + (e - f) = e := by omega
    have hmax : max f (f + c) = f + c := by omega
    rw [hmin, hmax, hfe2, if_neg (lt_irrefl f), List.nil_append, mkDirty]

/-! ## The chunk-list invariant (C1) -/

/-- The inductive invariant of a region: chunks contiguous from the base in
byte and line space, never exceeding the region, and the dirty set exactly
the remaining suffix. -/
def Inv (st : Region) : Prop :=
  wfFromB st.d_offset 0 st.processed = true ∧
  sumLen st.processed ≤ st.d_length ∧
  st.dirty = mkDirty (st.d_offset + sumLen st.processed) (st.d_offset + st.d_length)

theorem Inv_init (off len ind : Nat) : Inv (initRegion off len ind) := by
  refine ⟨rfl, by simp [initRegion, sumLen_nil], ?_⟩
  show (if len = 0 then ([] : List ByteRange) else [⟨off, len⟩]) =
    mkDirty (off + sumLen []) (off + len)
  rw [sumLen_nil, mkDirty]
  by_cases h : len = 0
  · rw [if_pos h, if_neg (by omega)]
  · rw [if_neg h, if_pos (by omega)]
    congr 1
    congr 1 <;> omega

theorem Inv_unprocessed_offset {st : Region} (h : Inv st) :
    unprocessed_offset st = st.d_offset + sumLen st.processed := by
  rw [unprocessed_offset]
  exact wf_getLast_end h.1

theorem relYEnd_eq_sumY {st : Region} (hwf : wfFromB st.d_offset 0 st.processed = true) :
    relYEnd st.processed = sumY st.processed := by
  cases hp : st.processed with
  | nil => rfl
  | cons x t =>
    rw [hp] at hwf
    have := wf_relYEnd hwf (by simp)
    omega

theorem Inv_step {dec : Decoder} {doc : DocRead} {st : Region} {fl : CheckFlags}
    {st' : Region} (hdoc : GoodDocLen doc) (hInv : Inv st)
    (h : check dec doc st = (some fl, st')) : Inv st' := by
  obtain ⟨hwf, hle, hdirty⟩ := hInv
  cases hhd : st.dirty.head? with
  | none =>
    rw [check, hhd] at h
    dsimp only at h
    rw [Prod.mk.injEq] at h
    obtain ⟨-, hst⟩ := h
    subst hst
    exact ⟨hwf, hle, hdirty⟩
  | some fr =>
    have hfe : st.d_offset + sumLen st.processed < st.d_offset + st.d_length ∧
        fr = ⟨st.d_offset + sumLen st.processed,
          (st.d_offset + st.d_length) - (st.d_offset + sumLen st.processed)⟩ := by
      rw [hdirty, mkDirty] at hhd
      split_ifs at hhd with hc
      · refine ⟨hc, ?_⟩
        rw [List.head?_cons] at hhd
        injection hhd with hv
        exact hv.symm
      · exact absurd hhd (by simp)
    obtain ⟨hfe, hfr⟩ := hfe
    cases hread : doc fr.offset (min fr.length SOFT_IR_LIMIT) with
    | none =>
      rw [check, hhd] at h
      dsimp only at h
      rw [hread] at h
      dsimp only at h
      rw [Prod.mk.injEq] at h
      exact absurd h.1 (by simp)
    | some data =>
      rw [check, hhd] at h
      dsimp only at h
      rw [hread] at h
      dsimp only at h
      rw [Prod.mk.injEq] at h
      obtain ⟨-, hst⟩ := h
      subst hst
      have hcb : consumed (decodeIns dec data fr.offset (relYEnd st.processed))
          ≤ fr.length :=
        le_trans (le_trans (decodeIns_consumed_le dec data fr.offset (relYEnd st.processed))
          (hdoc _ _ _ hread)) (min_le_left _ _)
      have hfrl : fr.length =
          (st.d_offset + st.d_length) - (st.d_offset + sumLen st.processed) := by
        rw [hfr]
      have hfro : fr.offset = st.d_offset + sumLen st.processed := by
        rw [hfr]
      unfold Inv
      dsimp only
      refine ⟨?_, ?_, ?_⟩
      · rw [wfFromB_append]
        refine ⟨hwf, ?_⟩
        rw [wfFromB_cons]
        refine ⟨?_, ?_, rfl⟩
        · exact hfro
        · show relYEnd st.processed = 0 + sumY st.processed
          rw [relYEnd_eq_sumY hwf]
          omega
      · rw [sumLen_append, sumLen_cons, sumLen_nil]
        dsimp only
        omega
      · rw [sumLen_append, sumLen_cons, sumLen_nil]
        dsimp only
        rw [hdirty]
        rw [show mkDirty (st.d_offset + sumLen st.processed) (st.d_offset + st.d_length)
            = [⟨st.d_offset + sumLen st.processed,
                (st.d_offset + st.d_length) - (st.d_offset + sumLen st.processed)⟩] from by
          rw [mkDirty, if_pos hfe]]
        rw [hfro] at hcb ⊢
        rw [clearRange_mkDirty hfe (by omega)]
        congr 1
        omega

theorem Reach_Inv {dec : Decoder} {doc : DocRead} {st : Region}
    (hdoc : GoodDocLen doc) (h : Reach dec doc st) : Inv st := by
  induction h with
  | init off len ind => exact Inv_init off len ind
  | step hr hc ih => exact Inv_step hdoc ih hc

/-! ## Behaviour lemmas for `instruction_by_offset` -/

theorem instructionByOffsetF_hit {dec : Decoder} {doc : DocRead} {fuel : Nat}
    {st : Region} {o : Nat} {i : Insn}
    (h : cacheLookup st.instructions o = some i) :
    instructionByOffsetF dec doc (fuel + 1) st o = (some i, st) := by
  rw [instructionByOffsetF, h]

theorem instructionByOffsetF_nochunk {dec : Decoder} {doc : DocRead} {fuel : Nat}
    {st : Region} {o : Nat}
    (h1 : cacheLookup st.instructions o = none)
    (h2 : processedByOffset st.processed o = none) :
    instructionByOffsetF dec doc (fuel + 1) st o = (none, st) := by
  rw [instructionByOffsetF, h1]
  dsimp only
  rw [h2]

theorem instructionByOffsetF_readfail {dec : Decoder} {doc : DocRead} {fuel : Nat}
    {st : Region} {o : Nat} {ir : InstructionRange}
    (h1 : cacheLookup st.instructions o = none)
    (h2 : processedByOffset st.processed o = some ir)
    (h3 : doc ir.offset ir.length = none) :
    instructionByOffsetF dec doc (fuel + 1) st o = (none, st) := by
  rw [instructionByOffsetF, h1]
  dsimp only
  rw [h2]
  dsimp only
  rw [h3]

theorem instructionByOffsetF_decode {dec : Decoder} {doc : DocRead} {fuel : Nat}
    {st : Region} {o : Nat} {ir : InstructionRange} {data : List Nat}
    (h1 : cacheLookup st.instructions o = none)
    (h2 : processedByOffset st.processed o = some ir)
    (h3 : doc ir.offset ir.length = some data) :
    instructionByOffsetF dec doc (fuel + 1) st o =
      instructionByOffsetF dec doc fuel
        { st with instructions := cacheInsert st.instructions o (decodeIns dec data ir.offset ir.rel_y_offset) } o := by
  rw [instructionByOffsetF, h1]
  dsimp only
  rw [h2]
  dsimp only
  rw [h3]

theorem instructionByOffset_eq_two {dec : Decoder} {doc : DocRead}
    {st : Region} {o : Nat} :
    instructionByOffset dec doc st o = instructionByOffsetF dec doc (1 + 1) st o := rfl

/-! ## C5: cursor left/right round trip -/

/-- C5: cursor left/right navigation is total on
`[d_offset, d_offset + d_length]`; `right ∘ left` returns to the original
position in the interior, `cursor_left_from` yields the previous-region
sentinel at the low end, and at the high end the round trip ends in the
next-region sentinel. -/
theorem C5_cursor_roundtrip (st : Region) :
    (∀ pos, st.d_offset < pos → pos < st.d_offset + st.d_length →
      cursor_left_from st pos = .pos (pos - 1) ∧
        cursor_right_from st (pos - 1) = .pos pos) ∧
    cursor_left_from st st.d_offset = .prevRegion ∧
    (0 < st.d_length →
      cursor_left_from st (st.d_offset + st.d_length)
          = .pos (st.d_offset + st.d_length - 1) ∧
        cursor_right_from st (st.d_offset + st.d_length - 1) = .nextRegion) ∧
    cursor_right_from st (st.d_offset + st.d_length) = .nextRegion := by
  refine ⟨?_, ?_, ?_, ?_⟩
  · intro pos h1 h2
    constructor
    · rw [cursor_left_from, if_pos h1]
    · rw [cursor_right_from, if_pos (by omega)]
      congr 1
      omega
  · rw [cursor_left_from, if_neg (by omega)]
  · intro hlen
    constructor
    · rw [cursor_left_from, if_pos (by omega)]
    · rw [cursor_right_from, if_neg (by omega)]
  · rw [cursor_right_from, if_neg (by omega)]

/-! ## C6: line count -/

/-- C6: the total line count is the sum of the chunk line counts, plus the
rows needed for the unprocessed bytes at the fixed row width
`max_bytes_per_line` (the longest instruction seen, or 8 before any decode),
rounded up, plus the trailing padding lines. -/
theorem C6_line_count (st : Region) :
    calc_height st =
      (st.processed.map InstructionRange.y_lines).sum
        + (unprocessed_bytes st + (max_bytes_per_line st - 1)) / max_bytes_per_line st
        + st.indent_final
    ∧ (st.longest_instruction = 0 → max_bytes_per_line st = 8)
    ∧ (0 < st.longest_instruction → max_bytes_per_line st = st.longest_instruction)
    ∧ unprocessed_bytes st ≤
        ((unprocessed_bytes st + (max_bytes_per_line st - 1)) / max_bytes_per_line st)
          * max_bytes_per_line st
    ∧ ((unprocessed_bytes st + (max_bytes_per_line st - 1)) / max_bytes_per_line st)
          * max_bytes_per_line st < unprocessed_bytes st + max_bytes_per_line st := by
  have hb : 0 < max_bytes_per_line st := by
    rw [max_bytes_per_line]
    split_ifs with h
    · exact h
    · omega
  have key : unprocessed_bytes st ≤
      ((unprocessed_bytes st + (max_bytes_per_line st - 1)) / max_bytes_per_line st)
        * max_bytes_per_line st
    ∧ ((unprocessed_bytes st + (max_bytes_per_line st - 1)) / max_bytes_per_line st)
        * max_bytes_per_line st < unprocessed_bytes st + max_bytes_per_line st := by
    have hdm := Nat.div_add_mod
      (unprocessed_bytes st + (max_bytes_per_line st - 1)) (max_bytes_per_line st)
    have hmlt := Nat.mod_lt
      (unprocessed_bytes st + (max_bytes_per_line st - 1)) hb
    generalize (unprocessed_bytes st + (max_bytes_per_line st - 1))
      / max_bytes_per_line st = q at hdm ⊢
    generalize (unprocessed_bytes st + (max_bytes_per_line st - 1))
      % max_bytes_per_line st = m at hdm hmlt
    rw [Nat.mul_comm q (max_bytes_per_line st)]
    generalize max_bytes_per_line st * q = t at hdm ⊢
    omega
  refine ⟨rfl, ?_, ?_, key.1, key.2⟩
  · intro h
    rw [max_bytes_per_line, if_neg (by omega)]
  · intro h
    rw [max_bytes_per_line, if_pos h]

/-! ## C8: read failures -/

/-- C8: a document read failure during `check()` or during the on-demand
decode in `instruction_by_offset` yields an empty result (the thrown
exception for `check`, modelled as `none`) and leaves the region — chunk
list, instruction cache, dirty set and width maxima — exactly in its prior
state. -/
theorem C8_read_failure_preserves_state (dec : Decoder) (doc : DocRead) (st : Region)
    (fr : ByteRange) (rest : List ByteRange) (ir : InstructionRange) (o : Nat)
    (h1 : st.dirty = fr :: rest)
    (h2 : doc fr.offset (min fr.length SOFT_IR_LIMIT) = none)
    (h3 : cacheLookup st.instructions o = none)
    (h4 : processedByOffset st.processed o = some ir)
    (h5 : doc ir.offset ir.length = none) :
    check dec doc st = (none, st) ∧
    instructionByOffset dec doc st o = (none, st) := by
  constructor
  · rw [check, h1, List.head?_cons]
    dsimp only
    rw [h2]
  · rw [instructionByOffset_eq_two, instructionByOffsetF_readfail h3 h4 h5]

/-! ## C9: width maxima are monotone -/

/-- C9: one `check()` call never decreases `longest_instruction` or
`longest_disasm` (each is only replaced by a strictly larger chunk maximum),
so `max_bytes_per_line` is non-decreasing once an instruction has been
decoded. -/
theorem C9_width_maxima_monotone (dec : Decoder) (doc : DocRead) (st : Region)
    (fl : CheckFlags) (st' : Region)
    (h : check dec doc st = (some fl, st')) :
    st.longest_instruction ≤ st'.longest_instruction ∧
    st.longest_disasm ≤ st'.longest_disasm ∧
    (0 < st.longest_instruction →
      max_bytes_per_line st ≤ max_bytes_per_line st') := by
  cases hhd : st.dirty.head? with
  | none =>
    rw [check, hhd] at h
    dsimp only at h
    rw [Prod.mk.injEq] at h
    obtain ⟨-, hst⟩ := h
    subst hst
    exact ⟨le_refl _, le_refl _, fun _ => le_refl _⟩
  | some fr =>
    rw [check, hhd] at h
    dsimp only at h
    cases hread : doc fr.offset (min fr.length SOFT_IR_LIMIT) with
    | none =>
      rw [hread] at h
      dsimp only at h
      rw [Prod.mk.injEq] at h
      exact absurd h.1 (by simp)
    | some data =>
      rw [hread] at h
      dsimp only at h
      rw [Prod.mk.injEq] at h
      obtain ⟨-, hst⟩ := h
      subst hst
      refine ⟨le_max_left _ _, le_max_left _ _, fun hpos => ?_⟩
      rw [max_bytes_per_line, max_bytes_per_line]
      dsimp only
      rw [if_pos hpos, if_pos (by omega)]
      exact le_max_left _ _

/-! ## C10: cursor movement degrades to a no-op on lookup failure -/

/-- C10: for a position in the processed area, if the instruction lookup
fails, `cursor_up_from`, `cursor_down_from`, `cursor_home_from` and
`cursor_end_from` all return the input position unchanged. -/
theorem C10_cursor_noop_on_failure (dec : Decoder) (doc : DocRead) (st : Region)
    (pos : Nat) (hpos : pos < unprocessed_offset st)
    (hfail : (instructionByOffset dec doc st pos).1 = none) :
    (cursor_up_from dec doc st pos).1 = .pos pos ∧
    (cursor_down_from dec doc st pos).1 = .pos pos ∧
    (cursor_home_from dec doc st pos).1 = .pos pos ∧
    (cursor_end_from dec doc st pos).1 = .pos pos := by
  rcases hi : instructionByOffset dec doc st pos with ⟨r, st1⟩
  rw [hi] at hfail
  dsimp only at hfail
  subst hfail
  refine ⟨?_, ?_, ?_, ?_⟩
  · rw [cursor_up_from]
    rw [if_pos hpos, hi]
  · rw [cursor_down_from]
    dsimp only
    rw [if_pos hpos, hi]
  · rw [cursor_home_from]
    rw [if_pos hpos, hi]
  · rw [cursor_end_from]
    dsimp only
    rw [if_pos hpos, hi]

/-! ## C3 machinery: the instruction cache is a pure accelerator -/

theorem chunkIns_read {dec : Decoder} {doc : DocRead} {ir : InstructionRange}
    {data : List Nat} (hread : doc ir.offset ir.length = some data) :
    chunkIns dec doc ir = decodeIns dec data ir.offset ir.rel_y_offset := by
  unfold chunkIns
  rw [hread]

/-- Instructions re-decoded from a faithful chunk lie inside its span. -/
theorem chunkIns_span {dec : Decoder} {doc : DocRead} {chunks : List InstructionRange}
    {ir : InstructionRange} (hF : ChunksFaithful dec doc chunks) (hir : ir ∈ chunks) :
    ∀ i ∈ chunkIns dec doc ir,
      ir.offset ≤ i.offset ∧ i.offset + i.length ≤ ir.offset + ir.length := by
  obtain ⟨data, hread, hlen, hcons⟩ := hF ir hir
  intro i hi
  rw [chunkIns_read hread] at hi
  have := chain_mem_span (decodeIns_chain dec data ir.offset ir.rel_y_offset) i hi
  omega

/-- A validated cache hit on a coherent cache agrees with the
cache-independent lookup. -/
theorem cacheLookup_coherent {dec : Decoder} {doc : DocRead} {st : Region} {o : Nat}
    {i : Insn} (hwf : wfFromB st.d_offset 0 st.processed = true)
    (hF : ChunksFaithful dec doc st.processed) (hC : CacheOK dec doc st)
    (h : cacheLookup st.instructions o = some i) :
    pureLookup dec doc st.processed o = some i := by
  obtain ⟨hmem, h1, h2⟩ := cacheLookup_sound h
  obtain ⟨ir, hir, hiIn⟩ := hC i hmem
  have hspan := chunkIns_span hF hir i hiIn
  have hpb : processedByOffset st.processed o = some ir :=
    wf_processedByOffset hwf hir (by omega) (by omega)
  rw [pureLookup, hpb]
  dsimp only
  obtain ⟨data, hread, -, -⟩ := hF ir hir
  rw [chunkIns_read hread] at hiIn ⊢
  exact cacheLookup_of_chain (decodeIns_chain dec data ir.offset ir.rel_y_offset)
    hiIn h1 h2

/-- Members of the spliced cache come from the old cache or the new batch. -/
theorem mem_cacheInsert {cache : List Insn} {o : Nat} {new : List Insn} {i : Insn}
    (h : i ∈ cacheInsert cache o new) : i ∈ cache ∨ i ∈ new := by
  rw [cacheInsert] at h
  split_ifs at h with hlim
  · exact Or.inr h
  · rcases List.mem_append.mp h with h' | h'
    · rcases List.mem_append.mp h' with h'' | h''
      · exact Or.inl (List.mem_filter.mp h'').1
      · exact Or.inr h''
    · exact Or.inl (List.mem_filter.mp h').1

/-- After splicing a decoded batch that covers `o` into the cache, the
validated lookup at `o` finds the batch's covering instruction. -/
theorem cacheLookup_cacheInsert {addr rely o : Nat}
    {cache new : List Insn} {c : Insn}
    (hchain : chainFromB addr rely new = true)
    (hc : c ∈ new) (h1 : c.offset ≤ o) (h2 : o < c.offset + c.length) :
    cacheLookup (cacheInsert cache o new) o = some c := by
  rw [cacheInsert]
  split_ifs with hlim
  · exact cacheLookup_of_chain hchain hc h1 h2
  · have hgt : lastLE (cache.filter (fun i => !decide (i.offset ≤ o))) o = none := by
      refine lastLE_eq_none (fun j hj => ?_)
      have := (List.mem_filter.mp hj).2
      simp only [Bool.not_eq_true', decide_eq_false_iff_not] at this
      exact this
    have hnew : lastLE new o = some c := chain_lastLE hchain hc h1 h2
    rw [cacheLookup, List.append_assoc, lastLE_append, lastLE_append, hgt]
    dsimp only
    rw [hnew]
    dsimp only
    rw [if_pos ⟨h1, h2⟩]

/-- `instruction_by_offset` returns the cache-independent answer and
preserves chunk state and cache coherence. -/
theorem instructionByOffset_pure {dec : Decoder} {doc : DocRead} {st : Region} {o : Nat}
    (hwf : wfFromB st.d_offset 0 st.processed = true)
    (hF : ChunksFaithful dec doc st.processed)
    (hC : CacheOK dec doc st) :
    (instructionByOffset dec doc st o).1 = pureLookup dec doc st.processed o ∧
    ((instructionByOffset dec doc st o).2).processed = st.processed ∧
    ((instructionByOffset dec doc st o).2).d_offset = st.d_offset ∧
    CacheOK dec doc (instructionByOffset dec doc st o).2 := by
  cases h1 : cacheLookup st.instructions o with
  | some i =>
    rw [instructionByOffset_eq_two, instructionByOffsetF_hit h1]
    exact ⟨(cacheLookup_coherent hwf hF hC h1).symm, rfl, rfl, hC⟩
  | none =>
    cases h2 : processedByOffset st.processed o with
    | none =>
      rw [instructionByOffset_eq_two, instructionByOffsetF_nochunk h1 h2]
      refine ⟨?_, rfl, rfl, hC⟩
      rw [pureLookup, h2]
    | some ir =>
      obtain ⟨hir, ho1, ho2⟩ := processedByOffset_sound h2
      obtain ⟨data, hread, hlen, hcons⟩ := hF ir hir
      have hchain := decodeIns_chain dec data ir.offset ir.rel_y_offset
      obtain ⟨c, hcmem, hcc⟩ := chain_covers_exists hchain ho1 (by omega)
      have hlook := @cacheLookup_cacheInsert ir.offset ir.rel_y_offset o
        st.instructions (decodeIns dec data ir.offset ir.rel_y_offset) c
        hchain hcmem hcc.1 hcc.2
      rw [instructionByOffset_eq_two, instructionByOffsetF_decode h1 h2 hread]
      rw [show (1 : Nat) = 0 + 1 from rfl, instructionByOffsetF_hit hlook]
      refine ⟨?_, rfl, rfl, ?_⟩
      · rw [pureLookup, h2]
        dsimp only
        rw [chunkIns_read hread]
        exact (cacheLookup_of_chain hchain hcmem hcc.1 hcc.2).symm
      · intro i hi
        rcases mem_cacheInsert hi with h' | h'
        · exact hC i h'
        · exact ⟨ir, hir, by rw [chunkIns_read hread]; exact h'⟩

/-- For a faithful chunk containing `o`, the cache-independent lookup
succeeds. -/
theorem pureLookup_isSome {dec : Decoder} {doc : DocRead} {chunks : List InstructionRange}
    {o : Nat} {ir : InstructionRange}
    (hF : ChunksFaithful dec doc chunks)
    (h2 : processedByOffset chunks o = some ir) :
    (pureLookup dec doc chunks o).isSome = true := by
  obtain ⟨hir, ho1, ho2⟩ := processedByOffset_sound h2
  obtain ⟨data, hread, hlen, hcons⟩ := hF ir hir
  have hchain := decodeIns_chain dec data ir.offset ir.rel_y_offset
  obtain ⟨c, hcmem, hcc⟩ := chain_covers_exists hchain ho1 (by omega)
  rw [pureLookup, h2]
  dsimp only
  rw [chunkIns_read hread, cacheLookup_of_chain hchain hcmem hcc.1 hcc.2]
  rfl

/-! ## C3: `instruction_at_offset` is idempotent and cache-independent -/

/-- C3: for an offset inside a processed chunk, with document bytes
unchanged (faithful chunk summaries) and a coherent cache, the lookup
returns an instruction, a second consecutive call returns the identical
instruction, and clearing the instruction cache does not change the
result. -/
theorem C3_lookup_idempotent_cache_independent (dec : Decoder) (doc : DocRead)
    (st : Region) (o : Nat) (ir : InstructionRange)
    (hwf : wfFromB st.d_offset 0 st.processed = true)
    (hF : ChunksFaithful dec doc st.processed)
    (hC : CacheOK dec doc st)
    (hin : processedByOffset st.processed o = some ir) :
    ((instructionByOffset dec doc st o).1).isSome = true ∧
    (instructionByOffset dec doc ((instructionByOffset dec doc st o).2) o).1
      = (instructionByOffset dec doc st o).1 ∧
    (instructionByOffset dec doc { st with instructions := [] } o).1
      = (instructionByOffset dec doc st o).1 := by
  obtain ⟨hval, hproc, hoff, hC1⟩ := instructionByOffset_pure (o := o) hwf hF hC
  have hwf1 : wfFromB ((instructionByOffset dec doc st o).2).d_offset 0
      ((instructionByOffset dec doc st o).2).processed = true := by
    rw [hproc, hoff]; exact hwf
  have hF1 : ChunksFaithful dec doc ((instructionByOffset dec doc st o).2).processed := by
    rw [hproc]; exact hF
  obtain ⟨hval1, -, -, -⟩ := instructionByOffset_pure (o := o) hwf1 hF1 hC1
  have hCe : CacheOK dec doc { st with instructions := [] } := by
    intro i hi
    exact absurd hi (List.not_mem_nil i)
  obtain ⟨hvale, -, -, -⟩ :=
    @instructionByOffset_pure dec doc { st with instructions := [] } o hwf hF hCe
  refine ⟨?_, ?_, ?_⟩
  · rw [hval]
    exact pureLookup_isSome hF hin
  · rw [hval1, hproc, hval]
  · rw [hvale, hval]

/-! ## C1: the chunk list invariant -/

/-- C1: after any sequence of `check()` calls, the chunk list is ordered and
contiguous — the first chunk starts at the region's base offset, each later
chunk starts where the previous ends, in byte space and in line space
(`wfFromB`) — and once the dirty set is empty the concatenated chunk spans
cover exactly `[d_offset, d_offset + d_length)`. -/
theorem C1_chunks_contiguous_and_complete {dec : Decoder} {doc : DocRead} {st : Region}
    (hdoc : GoodDocLen doc) (h : Reach dec doc st) :
    wfFromB st.d_offset 0 st.processed = true ∧
    (st.dirty = [] → sumLen st.processed = st.d_length) := by
  obtain ⟨hwf, hle, hdirty⟩ := Reach_Inv hdoc h
  refine ⟨hwf, fun hemp => ?_⟩
  rw [hdirty, mkDirty] at hemp
  by_cases hfe : st.d_offset + sumLen st.processed < st.d_offset + st.d_length
  · rw [if_pos hfe] at hemp
    exact absurd hemp (by simp)
  · omega

theorem not_isEmpty_iff_ne_nil {α : Type} (l : List α) : (!l.isEmpty) = true ↔ l ≠ [] := by
  cases l <;> simp

/-! ## C2: one step is bounded and exact -/

/-- C2: with a non-empty dirty set and a successful read, one `check()` call
reads `min(first_dirty.length, SOFT_IR_LIMIT) ≤ 10240` bytes starting at the
first dirty range, appends exactly one chunk whose byte length is the bytes
actually consumed and whose line count is the number of decoded
instructions, removes exactly the consumed bytes from the dirty set, and
sets the `PROCESSING` flag iff dirty bytes remain. -/
theorem C2_step_reads_bounded_and_updates (dec : Decoder) (doc : DocRead) (st : Region)
    (fr : ByteRange) (rest : List ByteRange) (data : List Nat)
    (fl : CheckFlags) (st' : Region)
    (h1 : st.dirty = fr :: rest)
    (h2 : doc fr.offset (min fr.length SOFT_IR_LIMIT) = some data)
    (h3 : check dec doc st = (some fl, st')) :
    min fr.length SOFT_IR_LIMIT ≤ 10240 ∧
    st'.processed = st.processed ++
      [{ offset := fr.offset,
         length := consumed (decodeIns dec data fr.offset (relYEnd st.processed)),
         longest_instruction := maxInsnLen (decodeIns dec data fr.offset (relYEnd st.processed)),
         longest_disasm := maxDisasmLen (decodeIns dec data fr.offset (relYEnd st.processed)),
         rel_y_offset := relYEnd st.processed,
         y_lines := (decodeIns dec data fr.offset (relYEnd st.processed)).length }] ∧
    (∀ o : Nat, rsMem st'.dirty o = true ↔
      (rsMem st.dirty o = true ∧
        ¬(fr.offset ≤ o ∧
          o < fr.offset + consumed (decodeIns dec data fr.offset (relYEnd st.processed))))) ∧
    (fl.processing = true ↔ st'.dirty ≠ []) := by
  rw [check, h1, List.head?_cons] at h3
  dsimp only at h3
  rw [h2] at h3
  dsimp only at h3
  rw [Prod.mk.injEq] at h3
  obtain ⟨hfl, hst⟩ := h3
  injection hfl with hfl
  subst hst
  subst hfl
  refine ⟨min_le_right _ _, rfl, ?_, ?_⟩
  · intro o
    dsimp only
    rw [h1]
    exact rsMem_clearRange (fr :: rest) fr.offset _ o
  · dsimp only
    exact not_isEmpty_iff_ne_nil _

/-! ## C7: cache eviction policy -/

/-- C7: when the on-demand decode's batch would push the cache past
`INSTRUCTION_CACHE_LIMIT` (250 000) entries, the whole cache is discarded
and the post-insert cache is exactly the new batch; otherwise the batch is
spliced in at its offset position and every previously cached instruction
is retained. -/
theorem C7_cache_eviction (dec : Decoder) (doc : DocRead) (st : Region) (o : Nat)
    (ir : InstructionRange) (data : List Nat) (c : Insn)
    (h1 : cacheLookup st.instructions o = none)
    (h2 : processedByOffset st.processed o = some ir)
    (h3 : doc ir.offset ir.length = some data)
    (h4 : cacheLookup
      (cacheInsert st.instructions o (decodeIns dec data ir.offset ir.rel_y_offset)) o
      = some c) :
    ((instructionByOffset dec doc st o).2).instructions
      = cacheInsert st.instructions o (decodeIns dec data ir.offset ir.rel_y_offset) ∧
    (INSTRUCTION_CACHE_LIMIT
        < st.instructions.length + (decodeIns dec data ir.offset ir.rel_y_offset).length →
      cacheInsert st.instructions o (decodeIns dec data ir.offset ir.rel_y_offset)
        = decodeIns dec data ir.offset ir.rel_y_offset) ∧
    (¬ INSTRUCTION_CACHE_LIMIT
        < st.instructions.length + (decodeIns dec data ir.offset ir.rel_y_offset).length →
      cacheInsert st.instructions o (decodeIns dec data ir.offset ir.rel_y_offset)
        = st.instructions.filter (fun i => decide (i.offset ≤ o))
            ++ decodeIns dec data ir.offset ir.rel_y_offset
            ++ st.instructions.filter (fun i => !decide (i.offset ≤ o)) ∧
      ∀ i ∈ st.instructions,
        i ∈ cacheInsert st.instructions o (decodeIns dec data ir.offset ir.rel_y_offset)) := by
  refine ⟨?_, ?_, ?_⟩
  · rw [instructionByOffset_eq_two, instructionByOffsetF_decode h1 h2 h3,
      show (1 : Nat) = 0 + 1 from rfl, instructionByOffsetF_hit h4]
  · intro hlim
    rw [cacheInsert, if_pos hlim]
  · intro hlim
    refine ⟨by rw [cacheInsert, if_neg hlim], fun i hi => ?_⟩
    rw [cacheInsert, if_neg hlim]
    by_cases hio : i.offset ≤ o
    · refine List.mem_append.mpr (Or.inl (List.mem_append.mpr (Or.inl ?_)))
      exact List.mem_filter.mpr ⟨hi, by simp [hio]⟩
    · refine List.mem_append.mpr (Or.inr ?_)
      exact List.mem_filter.mpr ⟨hi, by simp [hio]⟩

/-! ## C4: the live preview's candidate search -/

theorem disasmIter_chain (dec : Decoder) (bs : List Nat) (addr : Nat) :
    chainFromB addr 0 (disasmIter dec bs addr) = true :=
  disasmIterF_chain dec bs.length bs addr 0

/-- In a decoded run, the instruction strictly before the cursor that covers
it is the last element of the `takeWhile (offset < pos)` prefix — the
element inspected by the preview's `lower_bound` overlap test. -/
theorem chain_takeWhile_getLast {addr rely pos : Nat} {l : List Insn} {i : Insn}
    (h : chainFromB addr rely l = true) (hi : i ∈ l)
    (h1 : i.offset < pos) (h2 : pos < i.offset + i.length) :
    (l.takeWhile (fun x => decide (x.offset < pos))).getLast? = some i := by
  induction l generalizing addr rely with
  | nil => exact absurd hi (List.not_mem_nil i)
  | cons x rest ih =>
    rw [chainFromB_cons] at h
    obtain ⟨hoff, hlen, -, hrest⟩ := h
    rcases List.mem_cons.mp hi with rfl | hi'
    · rw [List.takeWhile_cons_of_pos (p := fun x : Insn => decide (x.offset < pos))
        (by simp only [decide_eq_true_eq]; omega)]
      cases rest with
      | nil => rw [List.takeWhile_nil, List.getLast?_singleton]
      | cons y t =>
        have hyo := (chainFromB_cons.mp hrest).1
        rw [List.takeWhile_cons_of_neg (p := fun x : Insn => decide (x.offset < pos))
          (by simp only [decide_eq_true_eq]; omega), List.getLast?_singleton]
    · have hxi : x.offset < pos := by
        have hspan := chain_mem_span hrest i hi'
        omega
      rw [List.takeWhile_cons_of_pos (p := fun x : Insn => decide (x.offset < pos))
        (by simp only [decide_eq_true_eq]; omega)]
      have ihv := ih hrest hi'
      cases htw : rest.takeWhile (fun x => decide (x.offset < pos)) with
      | nil => rw [htw] at ihv; exact absurd ihv (by simp)
      | cons y t =>
        rw [htw] at ihv
        rw [List.getLast?_cons_cons]
        exact ihv

/-- The preview's second-pass acceptance test, characterised semantically
for decoded runs: it accepts iff the run has an instruction starting
strictly before the cursor that covers it, and also an instruction starting
at or after the cursor. -/
theorem step2Accept_iff {addr rely pos : Nat} {chain : List Insn}
    (h : chainFromB addr rely chain = true) :
    step2Accept chain pos = true ↔
      ((∃ i ∈ chain, i.offset < pos ∧ pos < i.offset + i.length) ∧
        (∃ j ∈ chain, pos ≤ j.offset)) := by
  rw [step2Accept]
  constructor
  · intro hacc
    cases hlast : (chain.takeWhile fun i => decide (i.offset < pos)).getLast? with
    | none => rw [hlast] at hacc; exact absurd hacc (by simp)
    | some prev =>
      rw [hlast] at hacc
      dsimp only at hacc
      rw [Bool.and_eq_true] at hacc
      obtain ⟨hge, hcov⟩ := hacc
      have hprevmem := List.mem_of_getLast?_eq_some hlast
      have hprevchain : prev ∈ chain := (List.takeWhile_sublist _).subset hprevmem
      have hprevlt : prev.offset < pos := by
        have := List.mem_takeWhile_imp hprevmem
        simpa using this
      have hcov' : pos < prev.offset + prev.length := by simpa using hcov
      refine ⟨⟨prev, hprevchain, hprevlt, hcov'⟩, ?_⟩
      by_contra hno
      push_neg at hno
      have hnil : chain.dropWhile (fun i => decide (i.offset < pos)) = [] :=
        List.dropWhile_eq_nil_iff.mpr (fun x hx => by
          have := hno x hx
          simpa using this)
      rw [hnil] at hge
      exact absurd hge (by simp)
  · rintro ⟨⟨i, hi, hilt, hicov⟩, ⟨j, hj, hjge⟩⟩
    rw [chain_takeWhile_getLast h hi hilt hicov]
    dsimp only
    rw [Bool.and_eq_true]
    refine ⟨?_, by simpa using hicov⟩
    have hne : chain.dropWhile (fun i => decide (i.offset < pos)) ≠ [] := by
      intro hnil
      have := List.dropWhile_eq_nil_iff.mp hnil j hj
      simp at this
      omega
    cases hge : chain.dropWhile (fun i => decide (i.offset < pos)) with
    | nil => exact absurd hge hne
    | cons a b => rw [List.isEmpty_cons, Bool.not_false]

/-- The decoder of the C4 counterexample: every instruction needs two bytes
(e.g. a fixed-width 16-bit architecture). -/
def cexDec : Decoder := fun bs _ => if 2 ≤ bs.length then some (2, "ins") else none

/-- C4 counterexample: with the two-byte decoder, window base 0, cursor at
offset 1 and window bytes `[0, 0]`, candidate 0 decodes to an instruction
spanning `[0, 2)` that covers the cursor, yet the preview reports
`<invalid instruction>` (`none`) — because the covering instruction is the
final one of the decode, so the `lower_bound` test (`ii != end`) rejects
it. -/
theorem C4_counterexample_covering_rejected :
    previewChoose cexDec 0 1 [0, 0] = none ∧
    (candidateChain cexDec 0 [0, 0] 0).any
      (fun i => decide (i.offset ≤ 1) && decide (1 < i.offset + i.length)) = true ∧
    0 < previewCount 0 1 [0, 0] := by
  refine ⟨?_, ?_, ?_⟩
  · rfl
  · rfl
  · decide

/-- C4 (amended): the preview reports `<invalid instruction>` iff no
candidate has an instruction starting exactly at the cursor and no
candidate passes the overlap test — i.e. contains an instruction starting
before the cursor that covers it *and* an instruction starting at or after
the cursor (a covering instruction that is the last of its decode is
rejected). -/
theorem C4_preview_search_amended (dec : Decoder) (wb pos : Nat) (data : List Nat) :
    previewChoose dec wb pos data = none ↔
      ∀ k, k < previewCount wb pos data →
        (∀ i ∈ candidateChain dec wb data k, i.offset ≠ pos) ∧
        ¬((∃ i ∈ candidateChain dec wb data k,
            i.offset < pos ∧ pos < i.offset + i.length) ∧
          (∃ j ∈ candidateChain dec wb data k, pos ≤ j.offset)) := by
  rw [previewChoose]
  cases hf1 : (List.range (previewCount wb pos data)).find?
      (fun k => hasExact (candidateChain dec wb data k) pos) with
  | some k =>
    dsimp only
    have hk := List.find?_some hf1
    have hkmem := List.mem_of_find?_eq_some hf1
    rw [List.mem_range] at hkmem
    simp only [hasExact, List.any_eq_true, beq_iff_eq] at hk
    obtain ⟨i, hi, hoff⟩ := hk
    constructor
    · intro hcontr
      exact absurd hcontr (by simp)
    · intro hall
      exact absurd hoff ((hall k hkmem).1 i hi)
  | none =>
    dsimp only
    cases hf2 : (List.range (previewCount wb pos data)).find?
        (fun k => step2Accept (candidateChain dec wb data k) pos) with
    | some k =>
      dsimp only
      have hk := List.find?_some hf2
      have hkmem := List.mem_of_find?_eq_some hf2
      rw [List.mem_range] at hkmem
      have hsem := (step2Accept_iff
        (disasmIter_chain dec (data.drop k) (wb + k))).mp hk
      constructor
      · intro hcontr
        exact absurd hcontr (by simp)
      · intro hall
        exact absurd hsem ((hall k hkmem).2)
    | none =>
      dsimp only
      rw [List.find?_eq_none] at hf1 hf2
      constructor
      · intro _ k hk
        have h1 := hf1 k (List.mem_range.mpr hk)
        have h2 := hf2 k (List.mem_range.mpr hk)
        constructor
        · intro i hi
          intro hoff
          exact h1 (by
            simp only [hasExact, List.any_eq_true, beq_iff_eq]
            exact ⟨i, hi, hoff⟩)
        · intro hsem
          exact h2 ((step2Accept_iff
            (disasmIter_chain dec (data.drop k) (wb + k))).mpr hsem)
      · intro _
        rfl

/-! ## Concrete instances used to exercise the theorems -/

/-- A one-byte-per-instruction decoder (pure data decoding). -/
def wDec : Decoder := fun bs _ => if 1 ≤ bs.length then some (1, "db") else none

/-- A document of zero bytes where every read resolves in full. -/
def wDoc : DocRead := fun _ l => some (List.replicate l 0)

/-- A document whose reads always fail. -/
def wDocFail : DocRead := fun _ _ => none

theorem wDoc_good : GoodDocLen wDoc := by
  intro o l bs hb
  injection hb with h
  rw [← h]
  simp

/-- A half-processed four-byte region: one chunk over `[0, 2)`, empty
cache, dirty `[2, 4)`. -/
def wSt : Region :=
  { d_offset := 0, d_length := 4,
    processed := [⟨0, 2, 1, 2, 0, 2⟩],
    instructions := [], dirty := [⟨2, 2⟩],
    longest_instruction := 1, longest_disasm := 2, indent_final := 0 }

theorem wSt_faithful : ChunksFaithful wDec wDoc wSt.processed := by
  intro ir hir
  rw [show wSt.processed = [⟨0, 2, 1, 2, 0, 2⟩] from rfl, List.mem_singleton] at hir
  subst hir
  exact ⟨List.replicate 2 0, rfl, by decide, rfl⟩

theorem C1_chunks_contiguous_and_complete_witness :
    GoodDocLen wDoc ∧
    (wfFromB ((check wDec wDoc (initRegion 0 4 0)).2).d_offset 0
        ((check wDec wDoc (initRegion 0 4 0)).2).processed = true ∧
      (((check wDec wDoc (initRegion 0 4 0)).2).dirty = [] →
        sumLen ((check wDec wDoc (initRegion 0 4 0)).2).processed
          = ((check wDec wDoc (initRegion 0 4 0)).2).d_length)) :=
  ⟨wDoc_good, C1_chunks_contiguous_and_complete wDoc_good
    (Reach.step (Reach.init 0 4 0) rfl)⟩

theorem C2_step_reads_bounded_and_updates_witness :
    min (4 : Nat) SOFT_IR_LIMIT ≤ 10240 ∧
    ((check wDec wDoc (initRegion 0 4 0)).2).processed = [] ++
      [{ offset := 0,
         length := consumed (decodeIns wDec (List.replicate 4 0) 0 (relYEnd [])),
         longest_instruction := maxInsnLen (decodeIns wDec (List.replicate 4 0) 0 (relYEnd [])),
         longest_disasm := maxDisasmLen (decodeIns wDec (List.replicate 4 0) 0 (relYEnd [])),
         rel_y_offset := relYEnd [],
         y_lines := (decodeIns wDec (List.replicate 4 0) 0 (relYEnd [])).length }] ∧
    (rsMem ((check wDec wDoc (initRegion 0 4 0)).2).dirty 2 = true ↔
      (rsMem (initRegion 0 4 0).dirty 2 = true ∧
        ¬((0 : Nat) ≤ 2 ∧
          (2 : Nat) < 0 + consumed (decodeIns wDec (List.replicate 4 0) 0 (relYEnd []))))) ∧
    ((⟨true, true, false⟩ : CheckFlags).processing = true ↔
      ((check wDec wDoc (initRegion 0 4 0)).2).dirty ≠ []) := by
  have h := C2_step_reads_bounded_and_updates wDec wDoc (initRegion 0 4 0)
    ⟨0, 4⟩ [] (List.replicate 4 0) ⟨true, true, false⟩
    ((check wDec wDoc (initRegion 0 4 0)).2) rfl rfl rfl
  exact ⟨h.1, h.2.1, h.2.2.1 2, h.2.2.2⟩

theorem C3_lookup_idempotent_cache_independent_witness :
    ((instructionByOffset wDec wDoc wSt 1).1).isSome = true ∧
    (instructionByOffset wDec wDoc ((instructionByOffset wDec wDoc wSt 1).2) 1).1
      = (instructionByOffset wDec wDoc wSt 1).1 ∧
    (instructionByOffset wDec wDoc { wSt with instructions := [] } 1).1
      = (instructionByOffset wDec wDoc wSt 1).1 :=
  C3_lookup_idempotent_cache_independent wDec wDoc wSt 1 ⟨0, 2, 1, 2, 0, 2⟩
    (by decide) wSt_faithful
    (fun i hi => absurd hi (List.not_mem_nil i))
    (by decide)

theorem C5_cursor_roundtrip_witness :
    cursor_left_from (initRegion 10 4 0) 12 = .pos 11 ∧
    cursor_right_from (initRegion 10 4 0) 11 = .pos 12 ∧
    cursor_left_from (initRegion 10 4 0) 10 = .prevRegion ∧
    cursor_right_from (initRegion 10 4 0) 14 = .nextRegion := by
  have h := C5_cursor_roundtrip (initRegion 10 4 0)
  have h1 := h.1 12 (by decide) (by decide)
  exact ⟨h1.1, h1.2, h.2.1, h.2.2.2⟩

theorem C7_cache_eviction_witness :
    ((instructionByOffset wDec wDoc wSt 1).2).instructions
      = cacheInsert wSt.instructions 1 (decodeIns wDec (List.replicate 2 0) 0 0) ∧
    (INSTRUCTION_CACHE_LIMIT
        < wSt.instructions.length + (decodeIns wDec (List.replicate 2 0) 0 0).length →
      cacheInsert wSt.instructions 1 (decodeIns wDec (List.replicate 2 0) 0 0)
        = decodeIns wDec (List.replicate 2 0) 0 0) ∧
    (¬ INSTRUCTION_CACHE_LIMIT
        < wSt.instructions.length + (decodeIns wDec (List.replicate 2 0) 0 0).length →
      cacheInsert wSt.instructions 1 (decodeIns wDec (List.replicate 2 0) 0 0)
        = wSt.instructions.filter (fun i => decide (i.offset ≤ 1))
            ++ decodeIns wDec (List.replicate 2 0) 0 0
            ++ wSt.instructions.filter (fun i => !decide (i.offset ≤ 1)) ∧
      ∀ i ∈ wSt.instructions,
        i ∈ cacheInsert wSt.instructions 1 (decodeIns wDec (List.replicate 2 0) 0 0)) :=
  C7_cache_eviction wDec wDoc wSt 1 ⟨0, 2, 1, 2, 0, 2⟩ (List.replicate 2 0)
    ⟨1, 1, [0], "db", 1⟩ rfl (by decide) rfl rfl

theorem C8_read_failure_preserves_state_witness :
    check wDec wDocFail wSt = (none, wSt) ∧
    instructionByOffset wDec wDocFail wSt 0 = (none, wSt) :=
  C8_read_failure_preserves_state wDec wDocFail wSt ⟨2, 2⟩ [] ⟨0, 2, 1, 2, 0, 2⟩ 0
    rfl rfl rfl (by decide) rfl

theorem C9_width_maxima_monotone_witness :
    wSt.longest_instruction ≤ ((check wDec wDoc wSt).2).longest_instruction ∧
    wSt.longest_disasm ≤ ((check wDec wDoc wSt).2).longest_disasm ∧
    (0 < wSt.longest_instruction →
      max_bytes_per_line wSt ≤ max_bytes_per_line ((check wDec wDoc wSt).2)) :=
  C9_width_maxima_monotone wDec wDoc wSt ⟨true, false, false⟩
    ((check wDec wDoc wSt).2) rfl

theorem C10_cursor_noop_on_failure_witness :
    (cursor_up_from wDec wDocFail wSt 0).1 = .pos 0 ∧
    (cursor_down_from wDec wDocFail wSt 0).1 = .pos 0 ∧
    (cursor_home_from wDec wDocFail wSt 0).1 = .pos 0 ∧
    (cursor_end_from wDec wDocFail wSt 0).1 = .pos 0 :=
  C10_cursor_noop_on_failure wDec wDocFail wSt 0 (by decide) rfl

end Rehex
